import Mathlib

/-
Shallow embedding of the QNET quantum-network reduction core
(repository FalafelGood/Qnet-Thesis-Version-2020).

Source files embedded:
  src/Path.py        (Path.__init__, get_cost_vector, remove_edges, swap_path)
  src/Reductions.py  (purify_reduce, swap_reduce)
  src/MonteCarlo.py  (percolate, monte_method probability grid)

The QNET support module itself (class Qnet, node classes, best_path,
fidTransform, add_qchan, getNode, remove_prefix, conversions) is not part of
the provided sources; those pieces are modelled from the specification and
each such definition is marked accordingly in its doc comment.

Numbers are modelled as rationals.  Python dictionaries are modelled as
insertion-ordered association lists with unique keys.  Python exceptions are
modelled with an explicit error type threaded through Except.
-/

namespace QNETModel

/-- PyErr enumerates the Python exception classes that the embedded code can
raise: assertion failures, TypeError (for example functools.reduce over an
empty sequence), RuntimeError (dictionary changed size during iteration),
KeyError, IndexError and the networkx not-found errors. -/
inductive PyErr where
  | assertionError
  | typeError
  | runtimeError
  | keyError
  | indexError
  | nodeNotFound
  | networkXError
  deriving DecidableEq, Repr

/-- PyVal is the value domain of cost-vector dictionaries.  Ordinarily every
stored value is a number; the constructor convFun represents a Python function
object (a registered conversion function) stored in a dictionary slot, which
the buggy line 86 of src/Reductions.py can produce. -/
inductive PyVal where
  | num (q : Rat)
  | convFun (dim : String)
  deriving DecidableEq, Repr

/-- Addition of dictionary values as performed by collections.Counter.update.
Only numbers are ever added in the embedded code paths. -/
def PyVal.add : PyVal → PyVal → PyVal
  | .num a, .num b => .num (a + b)
  | a, _ => a

/-- Multiplication of dictionary values (used for the efficiency dimension). -/
def PyVal.mul : PyVal → PyVal → PyVal
  | .num a, .num b => .num (a * b)
  | a, _ => a

/-- Minimum of two dictionary values (used by the Python builtin min over the
collected efficiency list). -/
def PyVal.pymin : PyVal → PyVal → PyVal
  | .num a, .num b => .num (min a b)
  | a, _ => a

/-- CV models a Python dict from cost-dimension name to value, as an
insertion-ordered association list with unique keys. -/
abbrev CV := List (String × PyVal)

/-- Dictionary lookup. -/
def cvGet (cv : CV) (k : String) : Option PyVal :=
  (cv.find? (fun p => p.1 = k)).map (fun p => p.2)

/-- Dictionary write: overwrite in place when the key exists, append a new
entry otherwise (CPython insertion-order semantics). -/
def cvSet (cv : CV) (k : String) (v : PyVal) : CV :=
  if (cv.find? (fun p => p.1 = k)).isSome then
    cv.map (fun p => if p.1 = k then (k, v) else p)
  else
    cv ++ [(k, v)]

/-- Keys of a dictionary in insertion order. -/
def cvKeys (cv : CV) : List String := cv.map (fun p => p.1)

/-- Conv is one registered conversion pair (forward to the additive form,
inverse back to the plain form), as stored in Qnet.conversions. -/
structure Conv where
  fwd : Rat → Rat
  inv : Rat → Rat

/-- Application of the forward conversion to a dictionary value. -/
def applyFwd (c : Conv) : PyVal → PyVal
  | .num q => .num (c.fwd q)
  | v => v

/-- Application of the inverse conversion to a dictionary value. -/
def applyInv (c : Conv) : PyVal → PyVal
  | .num q => .num (c.inv q)
  | v => v

/-- Modelled from the spec: the node classes Qnode, Ground, Swapper and
Satellite of the missing QNET module are a closed set of variants, so node
type is a tag.  Plain corresponds to the base Qnode class. -/
inductive NType where
  | plain
  | ground
  | swapper
  | satellite
  deriving DecidableEq, Repr

/-- Modelled from the spec: a QNET node carries a name (its identity for
lookup), its variant tag, an intrinsic cost vector (node.costs) and, for
swappers, an intrinsic swap success probability (node.swap_prob). -/
structure Qnode where
  name : String
  ntype : NType
  costs : CV
  swap_prob : Rat
  deriving DecidableEq, Repr

/-- One edge of the multigraph: endpoints (by node name), the per-pair
parallel-edge key, and the cost vector stored as the edge data. -/
structure QEdge where
  u : String
  v : String
  key : Nat
  costs : CV
  deriving DecidableEq, Repr

/-- Modelled from the spec: the Qnet network snapshot, reduced to what the
core consumes: the node list, the undirected multi-edge list and the
registered per-dimension conversion table. -/
structure Qnet where
  nodes : List Qnode
  edges : List QEdge
  conversions : String → Conv

/-- Does edge e join u and v (in either direction)? -/
def edgeJoins (e : QEdge) (u v : String) : Bool :=
  (e.u = u && e.v = v) || (e.u = v && e.v = u)

/-- Modelled from the spec: Qnet.getNode looks a node up by name and returns
None when no node of that name exists. -/
def Qnet.getNode (G : Qnet) (nm : String) : Option Qnode :=
  G.nodes.find? (fun n => n.name = nm)

/-- The networkx get_edge_data lookup(u, v, key): the data dictionary of the edge with
the given key between u and v, or None when there is no such edge. -/
def get_edge_data (G : Qnet) (u v : String) (k : Nat) : Option CV :=
  (G.edges.find? (fun e => edgeJoins e u v && e.key = k)).map (fun e => e.costs)

/-- Is there at least one edge between u and v (any key)?  This is the
membership test (u, v) in G.edges() used by Path.__init__. -/
def hasEdgeBetween (G : Qnet) (u v : String) : Bool :=
  G.edges.any (fun e => edgeJoins e u v)

/-- A Counter.update step with a single key/value pair: add to the existing count or
insert the pair at the end. -/
def counterAddPair (acc : CV) (kv : String × PyVal) : CV :=
  match cvGet acc kv.1 with
  | some w => cvSet acc kv.1 (w.add kv.2)
  | none => acc ++ [kv]

/-- A Counter.update with one dictionary (None is a no-op, which is how a
missing edge key silently contributes nothing to a path cost). -/
def counterUpdate (acc : CV) (d : Option CV) : CV :=
  match d with
  | none => acc
  | some d => d.foldl counterAddPair acc

/-- The sum_cost_vectors helper from src/Path.py lines 99-103: fold Counter.update over
the element cost vectors. -/
def sum_cost_vectors (l : List (Option CV)) : CV :=
  l.foldl counterUpdate []

/-- Does the dimension name start with the additive marker add_?  Same
semantics as the Python str.startswith test on the four-character marker,
phrased on the character list. -/
def startsWithAdd (s : String) : Bool := s.data.take 4 = "add_".data

/-- QNET.remove_prefix for the additive marker: drop the four characters of
the add marker (only ever applied after a startsWithAdd test). -/
def removeAddMarker (s : String) : String := ⟨s.data.drop 4⟩

/-- The conversion pass of Path.get_cost_vector (src/Path.py lines 107-114):
iterate over the dictionary keys; for each additive-marked dimension write
the inverse-converted value under the plain name.  CPython raises
RuntimeError when an insertion grows the dictionary during iteration, which
happens exactly when an additive-marked key has no plain counterpart. -/
def resolveLoop (G : Qnet) : List String → CV → Except PyErr CV
  | [], acc => Except.ok acc
  | k :: ks, acc =>
    if startsWithAdd k then
      match cvGet acc k with
      | none => Except.error PyErr.keyError
      | some cost =>
        let base := removeAddMarker k
        match cvGet acc base with
        | some _ => resolveLoop G ks (cvSet acc base (applyInv (G.conversions base) cost))
        | none => Except.error PyErr.runtimeError
    else resolveLoop G ks acc

/-- The consecutive (node, node, edge-key) triples of a path, pairing the
node array with the edge-key list positionally. -/
def nodePairs : List Qnode → List Nat → List (Qnode × Qnode × Nat)
  | a :: b :: rest, k :: ks => (a, b, k) :: nodePairs (b :: rest) ks
  | _, _ => []

/-- The method Path.get_cost_vector from src/Path.py lines 78-116: collect the edge data
of every traversed (pair, key) triple (None when the key references no edge),
append every visited node's intrinsic costs, sum everything Counter-style and
run the additive-conversion pass.  An edge-key list shorter than the number
of consecutive pairs would raise IndexError in Python. -/
def get_cost_vector (G : Qnet) (node_array : List Qnode) (edge_keys : List Nat) :
    Except PyErr CV :=
  if node_array.length - 1 > edge_keys.length then Except.error PyErr.indexError
  else
    let pairCVs := (nodePairs node_array edge_keys).map
      (fun t => get_edge_data G t.1.name t.2.1.name t.2.2)
    let nodeCVs := node_array.map (fun n => some n.costs)
    let summed := sum_cost_vectors (pairCVs ++ nodeCVs)
    resolveLoop G (cvKeys summed) summed

/-- The QNET Path: an ordered node sequence, the chosen parallel-edge key per
consecutive pair and the cost vector computed at construction time
(src/Path.py class Path). -/
structure Path where
  node_array : List Qnode
  edge_keys : List Nat
  cost_vector : CV
  deriving DecidableEq, Repr

/-- Does every consecutive pair of the node array have at least one edge in
either direction?  This is exactly the assertion of Path.__init__
(src/Path.py lines 53-57); note that it ignores the edge keys. -/
def consecPairsExist (G : Qnet) : List Qnode → Bool
  | a :: b :: rest => hasEdgeBetween G a.name b.name && consecPairsExist G (b :: rest)
  | _ => true

/-- Node resolution as performed per element by Path.__init__ lines 34-38:
getNode followed by an assertion that the node was found. -/
def getNodeE (G : Qnet) (nm : String) : Except PyErr Qnode :=
  match G.getNode nm with
  | some n => Except.ok n
  | none => Except.error PyErr.assertionError

/-- The constructor Path.__init__ from src/Path.py lines 17-57: resolve every name with
getNode (assertion failure when missing), default the key list to zeros,
index head and tail (IndexError on an empty array), compute the cost vector
(which can itself raise), then assert that every consecutive pair has an edge
in either direction, without consulting the edge keys. -/
def Path.construct (G : Qnet) (names : List String) (keys : Option (List Nat)) :
    Except PyErr Path :=
  match names.mapM (getNodeE G) with
  | Except.error e => Except.error e
  | Except.ok node_array =>
    let edge_keys := keys.getD (List.replicate (node_array.length - 1) 0)
    if node_array.isEmpty then Except.error PyErr.indexError
    else
      match get_cost_vector G node_array edge_keys with
      | Except.error e => Except.error e
      | Except.ok cv =>
        if consecPairsExist G node_array then Except.ok ⟨node_array, edge_keys, cv⟩
        else Except.error PyErr.assertionError

/-- The networkx remove_edge operation(u, v, key): delete the (unique) edge with that key
between u and v.  Modelled as erasing the first match. -/
def removeEdge (G : Qnet) (u v : String) (k : Nat) : Qnet :=
  { G with edges := G.edges.eraseP (fun e => edgeJoins e u v && e.key = k) }

/-- The method Path.remove_edges from src/Path.py lines 140-152: delete every traversed
(pair, key) edge instance from the graph. -/
def Path.remove_edges (G : Qnet) (p : Path) : Qnet :=
  (nodePairs p.node_array p.edge_keys).foldl
    (fun C t => removeEdge C t.1.name t.2.1.name t.2.2) G

/-- The loop state of Path.swap_path: the ground_switch flag, the pending
swapper and the collected swap success probabilities. -/
structure SwapState where
  ground_switch : Bool
  swapper : Option Qnode
  swap_costs : List Rat
  deriving Repr

/-- One iteration of the swap_path node walk (src/Path.py lines 173-182).
The two isinstance tests run in sequence; the node variants are disjoint, so
at most one of them fires per node. -/
def swapStep (st : SwapState) (n : Qnode) : SwapState :=
  let st1 :=
    if n.ntype = NType.ground then
      if st.ground_switch = false then { st with ground_switch := true }
      else
        match st.swapper with
        | some s => { st with swapper := none, swap_costs := st.swap_costs ++ [s.swap_prob] }
        | none => st
    else st
  if n.ntype = NType.swapper ∧ st1.ground_switch = true then { st1 with swapper := some n }
  else st1

/-- The swap probabilities collected by walking the whole node array. -/
def collectSwapCosts (arr : List Qnode) : List Rat :=
  (arr.foldl swapStep ⟨false, none, []⟩).swap_costs

/-- Product of a list of rationals (the running swap_cost of src/Path.py
lines 185-187). -/
def prodList (l : List Rat) : Rat := l.foldl (· * ·) 1

/-- The method Path.swap_path from src/Path.py lines 157-191: walk the node array
collecting the pending swapper consumed at each later ground, multiply the
collected swap probabilities together and scale the efficiency entry of a
copy of the path cost vector by the product.  A missing efficiency entry
would raise KeyError in Python. -/
def Path.swap_path (p : Path) : Except PyErr CV :=
  let swap_cost := prodList (collectSwapCosts p.node_array)
  match cvGet p.cost_vector "e" with
  | none => Except.error PyErr.keyError
  | some v => Except.ok (cvSet p.cost_vector "e" (v.mul (PyVal.num swap_cost)))

/-- Neighbours of a node in node-list order (used to enumerate simple paths
in a fixed traversal order). -/
def neighborsOf (G : Qnet) (u : String) : List Qnode :=
  G.nodes.filter (fun n => hasEdgeBetween G u n.name)

/-- Modelled from the spec: enumeration of the simple node sequences from
cur to the target in a fixed depth-first traversal order, never revisiting a
node; the fuel argument bounds the recursion by the node count. -/
def simpleSeqsAux (G : Qnet) (tgt : String) :
    Nat → Qnode → List String → List (List Qnode)
  | 0, _, _ => []
  | fuel + 1, cur, visited =>
    if cur.name = tgt then [[cur]]
    else
      ((neighborsOf G cur.name).filter (fun n => !(visited.contains n.name))).flatMap
        (fun n =>
          (simpleSeqsAux G tgt fuel n (cur.name :: visited)).map (fun s => cur :: s))

/-- Modelled from the spec: all simple node sequences between two nodes. -/
def simpleSeqs (G : Qnet) (u v : Qnode) : List (List Qnode) :=
  simpleSeqsAux G v.name (G.nodes.length) u [u.name]

/-- The parallel-edge keys available between u and v, in edge-list order. -/
def keysBetween (G : Qnet) (u v : String) : List Nat :=
  (G.edges.filter (fun e => edgeJoins e u v)).map (fun e => e.key)

/-- All ways of choosing one parallel-edge key for each consecutive pair of a
node sequence. -/
def keyCombos (G : Qnet) : List Qnode → List (List Nat)
  | a :: b :: rest =>
    (keysBetween G a.name b.name).flatMap
      (fun k => (keyCombos G (b :: rest)).map (fun ks => k :: ks))
  | _ => [[]]

/-- The nx.has_path test: is there any simple path between u and v (trivially true
when u = v)? -/
def has_path (G : Qnet) (u v : Qnode) : Bool :=
  !(simpleSeqs G u v).isEmpty

/-- The resolved value of one dimension of a cost vector, as compared by the
best-path search. -/
def resolvedDim (cv : CV) (dim : String) : Rat :=
  match cvGet cv dim with
  | some (PyVal.num q) => q
  | _ => 0

/-- Is candidate p strictly better than q in the given dimension?  Modelled
from the spec: the quality dimensions f and e are maximized, every other
dimension is minimized, and ties keep the first-found candidate. -/
def betterPath (dim : String) (p q : Path) : Bool :=
  if dim = "f" || dim = "e" then
    resolvedDim p.cost_vector dim > resolvedDim q.cost_vector dim
  else
    resolvedDim p.cost_vector dim < resolvedDim q.cost_vector dim

/-- Modelled from the spec: QNET.best_path is not under src.  Per the spec it
searches all simple paths between head and tail (distinguishing the
parallel-edge key choices of the multigraph), computes each candidate cost
vector, and returns the candidate optimizing the requested dimension with a
first-found tie-break. -/
def best_path (G : Qnet) (u v : Qnode) (dim : String) : Except PyErr Path :=
  match ((simpleSeqs G u v).flatMap
      (fun s => (keyCombos G s).map (fun ks => (s, ks)))).mapM
      (fun c => (get_cost_vector G c.1 c.2).map (fun cv => (⟨c.1, c.2, cv⟩ : Path))) with
  | Except.error e => Except.error e
  | Except.ok [] => Except.error PyErr.networkXError
  | Except.ok (c :: cs) =>
    Except.ok (cs.foldl (fun best p => if betterPath dim p best then p else best) c)

/-- Modelled from the spec: QNET.fidTransform is not under src.  It is the
binary purification transform combining two fidelities into the fidelity of
the purified pair; the standard recurrence for recurrence purification is
used.  No claim settled here depends on its concrete values. -/
def fidTransform (f1 f2 : Rat) : Rat :=
  (f1 * f2) / (f1 * f2 + (1 - f1) * (1 - f2))

/-- fidTransform lifted to dictionary values, as applied by functools.reduce
over the collected fidelity list. -/
def pyFidTransform : PyVal → PyVal → PyVal
  | .num a, .num b => .num (fidTransform a b)
  | a, _ => a

/-- A fresh parallel-edge key between two endpoints (one more than the
largest key in use, or 0). -/
def freshKey (G : Qnet) (u v : String) : Nat :=
  (keysBetween G u v).foldl (fun a k => max a (k + 1)) 0

/-- Modelled from the spec: QNET.Qnet.add_qchan is not under src.  Per the
spec it inserts exactly one new parallel edge between the two endpoints
carrying the given cost vector, under a fresh key. -/
def add_qchan (G : Qnet) (u v : Qnode) (cv : CV) : Qnet :=
  { G with edges := G.edges ++ [⟨u.name, v.name, freshKey G u.name v.name, cv⟩] }

/-- The extraction loop of purify_reduce (src/Reductions.py lines 37-45):
while a path exists (and the threshold, when set, has not been strictly
exceeded by the counter), take the best path by fidelity, record its cost
vector, remove its edges and increment the counter.  The fuel argument stands
in for the chattering-free termination of the Python while loop; purify_reduce
supplies one more unit of fuel than there are edges, which suffices because
every extracted path between distinct endpoints removes at least one edge. -/
def purifyLoop (h t : Qnode) (threshold : Option Int) :
    Nat → Qnet → List CV → Nat → Except PyErr (List CV × Nat × Qnet)
  | 0, C, acc, c => Except.ok (acc, c, C)
  | fuel + 1, C, acc, c =>
    if has_path C h t then
      if (match threshold with
          | some k => decide ((c : Int) > k)
          | none => false : Bool) then Except.ok (acc, c, C)
      else
        match best_path C h t "f" with
        | Except.error e => Except.error e
        | Except.ok p =>
          purifyLoop h t threshold fuel (p.remove_edges C) (acc ++ [p.cost_vector]) (c + 1)
    else Except.ok (acc, c, C)

/-- Look one dimension up in a cost vector, raising KeyError when absent
(Python subscript d of a dict). -/
def cvGetE (cv : CV) (k : String) : Except PyErr PyVal :=
  match cvGet cv k with
  | some v => Except.ok v
  | none => Except.error PyErr.keyError

/-- The other-costs pass of purify_reduce (src/Reductions.py lines 79-87):
iterate over the keys of the summed cost vector; every additive-marked
dimension not yet present is copied with its summed value, and the plain
dimension is then assigned the registered inverse conversion FUNCTION itself
(line 86 reads Q.conversions[cost_type][1] without calling it), stored here
as PyVal.convFun. -/
def otherCostsPass (sum_cv : CV) (new_cv : CV) : CV :=
  (cvKeys sum_cv).foldl
    (fun nc k =>
      if (cvGet nc k).isNone ∧ startsWithAdd k then
        let nc1 := cvSet nc k ((cvGet sum_cv k).getD (PyVal.num 0))
        cvSet nc1 (removeAddMarker k) (PyVal.convFun (removeAddMarker k))
      else nc)
    new_cv

/-- The threshold validation shared by purify_reduce and swap_reduce
(src/Reductions.py lines 22-24 and 121-123): a supplied threshold must be a
positive integer (the isinstance check is carried by the Int type). -/
def checkThreshold (th : Option Int) : Except PyErr Unit :=
  match th with
  | some k => if k > 0 then Except.ok () else Except.error PyErr.assertionError
  | none => Except.ok ()

/-- The function purify_reduce from src/Reductions.py lines 7-91.  Validate the threshold,
copy the graph, resolve head and tail, run the extraction loop, then combine:
fidelities by a left fold of the purification transform over the extraction
order (functools.reduce raises TypeError on an empty list), efficiency as the
minimum times prob to the power 2 * (counter - 1), and the remaining additive
dimensions by the (buggy) other-costs pass.  Finally one new channel carrying
the combined cost vector is added to the WORKING COPY, which is returned. -/
def purify_reduce (Q : Qnet) (head tail : String) (threshold : Option Int)
    (prob : Rat) : Except PyErr Qnet :=
  match checkThreshold threshold with
  | Except.error e => Except.error e
  | Except.ok _ =>
    match Q.getNode head, Q.getNode tail with
    | some h, some t =>
      match purifyLoop h t threshold (Q.edges.length + 1) Q [] 0 with
      | Except.error e => Except.error e
      | Except.ok (cv_list, path_counter, C1) =>
        match cv_list.mapM (fun d => cvGetE d "f") with
        | Except.error e => Except.error e
        | Except.ok [] => Except.error PyErr.typeError
        | Except.ok (f0 :: fs) =>
          let pur_f := fs.foldl pyFidTransform f0
          let cv1 := cvSet (cvSet [] "f" pur_f) "add_f" (applyFwd (Q.conversions "f") pur_f)
          match cv_list.mapM (fun d => cvGetE d "e") with
          | Except.error e => Except.error e
          | Except.ok [] => Except.error PyErr.typeError
          | Except.ok (e0 :: es) =>
            let pur_e := (es.foldl PyVal.pymin e0).mul
              (PyVal.num (prob ^ (2 * (path_counter - 1))))
            let cv2 := cvSet (cvSet cv1 "e" pur_e) "add_e"
              (applyFwd (Q.conversions "e") pur_e)
            let sum_cv := sum_cost_vectors (cv_list.map some)
            let new_cv := otherCostsPass sum_cv cv2
            Except.ok (add_qchan C1 h t new_cv)
    | _, _ => Except.error PyErr.nodeNotFound

/-- The swapping loop of swap_reduce (src/Reductions.py lines 134-141): while
a path exists, take the best path by efficiency, compute its swapped cost
vector, record it and remove the path edges.  The threshold argument of
swap_reduce is never consulted here.  Fuel as in purifyLoop. -/
def swapLoop (h t : Qnode) :
    Nat → Qnet → List CV → Except PyErr (List CV × Qnet)
  | 0, C, acc => Except.ok (acc, C)
  | fuel + 1, C, acc =>
    if has_path C h t then
      match best_path C h t "e" with
      | Except.error e => Except.error e
      | Except.ok p =>
        match p.swap_path with
        | Except.error e => Except.error e
        | Except.ok cv => swapLoop h t fuel (p.remove_edges C) (acc ++ [cv])
    else Except.ok (acc, C)

/-- The function swap_reduce from src/Reductions.py lines 94-146: validate the threshold
(which the algorithm afterwards never uses), copy the graph, resolve head and
tail, run the swapping loop, then insert one new channel per swapped cost
vector into the working copy and return it. -/
def swap_reduce (Q : Qnet) (head tail : String) (threshold : Option Int) :
    Except PyErr Qnet :=
  match checkThreshold threshold with
  | Except.error e => Except.error e
  | Except.ok _ =>
    match Q.getNode head, Q.getNode tail with
    | some h, some t =>
      match swapLoop h t (Q.edges.length + 1) Q [] with
      | Except.error e => Except.error e
      | Except.ok (swap_costs, C1) =>
        Except.ok (swap_costs.foldl (fun C cv => add_qchan C h t cv) C1)
    | _, _ => Except.error PyErr.nodeNotFound

/-- A communication pair, by node name. -/
abbrev Pair := String × String

/-- Is the node a member of the communication pair? -/
def inPair (n : Qnode) (p : Pair) : Bool :=
  n.name = p.1 || n.name = p.2

/-- The networkx remove_nodes_from operation: delete the listed nodes and every edge
incident to one of them. -/
def remove_nodes_from (G : Qnet) (kill : List Qnode) : Qnet :=
  { G with
    nodes := G.nodes.filter (fun n => !(kill.any (fun m => m = n))),
    edges := G.edges.filter
      (fun e => !(kill.any (fun m => m.name = e.u || m.name = e.v))) }

/-- The function percolate from src/MonteCarlo.py lines 29-58: deep-copy the graph, obtain
the pair list from the pair method, then mark for deletion every node that is
missing from AT LEAST ONE selected pair (the code tests
any(node not in item for item in pairs)) and whose uniform draw is strictly
below prob; finally delete the marked nodes.  The random.uniform(0, 1) draws
are supplied as an explicit oracle indexed by node name. -/
def percolate (Q : Qnet) (prob : Rat) (pair_method : Qnet → List Pair)
    (draw : String → Rat) : Qnet × List Pair :=
  let C := Q
  let pairs := pair_method C
  let kill_list := C.nodes.filter
    (fun n => (pairs.any (fun p => !(inPair n p))) && decide (draw n.name < prob))
  (remove_nodes_from C kill_list, pairs)

/-- The numpy.linspace grid numpy.linspace(a, b, n) with endpoint=True over the rationals: n evenly
spaced points from a to b inclusive (a alone when n = 1, empty when n = 0). -/
def linspace (a b : Rat) (n : Nat) : List Rat :=
  if n ≤ 1 then List.replicate n a
  else (List.range n).map (fun i : Nat => a + (b - a) * (i : Rat) / ((n : Rat) - 1))

/-- The function monte_method from src/MonteCarlo.py lines 174-243, restricted to what is
deterministically specified: the probability grid and the shape of the result
table.  The range assertion checks only 0 <= range[0] and range[1] <= 1 (not
the order of the bounds); the table is created with one row per grid
probability and its p column holds the grid.  The per-row statistics are
driven by random sampling and are not modelled; they never change the row
count or the p column.  The result is the pair (p column, row count). -/
def monte_method (num_steps : Nat) (percolation_range : Option (Rat × Rat)) :
    Except PyErr (List Rat × Nat) :=
  match percolation_range with
  | some r =>
    if 0 ≤ r.1 ∧ r.2 ≤ 1 then
      Except.ok (linspace r.1 r.2 num_steps, (linspace r.1 r.2 num_steps).length)
    else Except.error PyErr.assertionError
  | none => Except.ok (linspace 0 1 num_steps, (linspace 0 1 num_steps).length)

/-- The identity conversion pair, used by the concrete test networks. -/
def idConv : Conv := ⟨fun x => x, fun x => x⟩

/-- A conversion table registering the identity pair for every dimension. -/
def idConvTable : String → Conv := fun _ => idConv

/-- A ground node with empty intrinsic costs. -/
def mkGround (nm : String) : Qnode := ⟨nm, NType.ground, [], 1⟩

/-- A swapper node with empty intrinsic costs and the given swap success
probability. -/
def mkSwapper (nm : String) (p : Rat) : Qnode := ⟨nm, NType.swapper, [], p⟩

/-- A two-node network with a single channel A-B. -/
def netSingle : Qnet :=
  ⟨[mkGround "A", mkGround "B"],
   [⟨"A", "B", 0, [("e", PyVal.num 1), ("f", PyVal.num (9/10))]⟩],
   idConvTable⟩

/-- A two-node network with no channel at all (A and B disconnected). -/
def netDisconnected : Qnet := ⟨[mkGround "A", mkGround "B"], [], idConvTable⟩

/-- A two-node network with two parallel channels between A and B (keys 0
and 1), hence two distinct one-hop paths. -/
def netTwoPar : Qnet :=
  ⟨[mkGround "A", mkGround "B"],
   [⟨"A", "B", 0, [("e", PyVal.num 1), ("f", PyVal.num 9)]⟩,
    ⟨"A", "B", 1, [("e", PyVal.num 1), ("f", PyVal.num 4)]⟩],
   idConvTable⟩

/-- A chain G1-S1-S2-G2 with two consecutive swappers between two grounds. -/
def netTwoSwappers : Qnet :=
  ⟨[mkGround "G1", mkSwapper "S1" (1/2), mkSwapper "S2" (1/3), mkGround "G2"],
   [⟨"G1", "S1", 0, [("e", PyVal.num 1)]⟩,
    ⟨"S1", "S2", 0, [("e", PyVal.num 1)]⟩,
    ⟨"S2", "G2", 0, [("e", PyVal.num 1)]⟩],
   idConvTable⟩

/-- The concrete path G1-S1-S2-G2 through netTwoSwappers with its computed
cost vector (the efficiencies of the three channels Counter-summed). -/
def pathTwoSwappers : Path :=
  ⟨[mkGround "G1", mkSwapper "S1" (1/2), mkSwapper "S2" (1/3), mkGround "G2"],
   [0, 0, 0], [("e", PyVal.num 3)]⟩

/-- A four-node network used to percolate with two communication pairs. -/
def netFourNodes : Qnet :=
  ⟨[mkGround "a", mkGround "b", mkGround "c", mkGround "d"], [], idConvTable⟩

/-- A node whose intrinsic cost vector has an additive-marked dimension with
no plain counterpart. -/
def nodeAddOnly : Qnode := ⟨"N", NType.ground, [("add_t", PyVal.num 3)], 1⟩

/-- A two-node network whose single channel carries a generic cost dimension
t in both plain and additive form alongside e and f. -/
def netExtraDim : Qnet :=
  ⟨[mkGround "A", mkGround "B"],
   [⟨"A", "B", 0,
     [("e", PyVal.num 1), ("add_e", PyVal.num 7),
      ("f", PyVal.num 1), ("add_f", PyVal.num 9),
      ("t", PyVal.num 2), ("add_t", PyVal.num 5)]⟩],
   idConvTable⟩

/-- The reduced network actually produced by purifying netSingle (defined by
running the embedded algorithm). -/
def purifiedSingleNet : Qnet :=
  (purify_reduce netSingle "A" "B" none (1/2)).toOption.getD netSingle

/-- A swap probability q is flanked in the node array when it is the swap
success probability of a Swapper node having a Ground-type node somewhere
before it and somewhere after it in sequence order. -/
def FlankedSwap (arr : List Qnode) (q : Rat) : Prop :=
  ∃ l1 s l2, arr = l1 ++ s :: l2 ∧ s.ntype = NType.swapper ∧ s.swap_prob = q ∧
    (∃ g ∈ l1, g.ntype = NType.ground) ∧ (∃ g ∈ l2, g.ntype = NType.ground)

/-- The invariant carried by the swap_path walk: a raised ground_switch
witnesses a ground among the processed nodes, a pending swapper is a swapper
preceded by a ground among the processed nodes, and every collected swap
probability is flanked within the processed prefix. -/
def SwapInv (processed : List Qnode) (st : SwapState) : Prop :=
  (st.ground_switch = true → ∃ g ∈ processed, g.ntype = NType.ground) ∧
  (∀ s, st.swapper = some s →
    ∃ l1 l2, processed = l1 ++ s :: l2 ∧ s.ntype = NType.swapper ∧
      ∃ g ∈ l1, g.ntype = NType.ground) ∧
  (∀ q ∈ st.swap_costs, FlankedSwap processed q)

/-
Theorems.  Helper lemmas first, then one principal theorem per claim together
with its counterexample and witness where required.
-/

theorem find_map_overwrite_ne (k k' : String) (v : PyVal) (h : k' ≠ k) :
    ∀ cv : CV,
      (cv.map (fun p => if p.1 = k then (k, v) else p)).find? (fun p => p.1 = k') =
        cv.find? (fun p => p.1 = k') := by
  intro cv
  induction cv with
  | nil => rfl
  | cons hd tl ih =>
    simp only [List.map_cons, List.find?_cons]
    by_cases hk : hd.1 = k
    · rw [if_pos hk]
      have h1 : (decide ((k, v).1 = k')) = false := by
        simp only [decide_eq_false_iff_not]
        exact fun hc => h hc.symm
      have h2 : (decide (hd.1 = k')) = false := by
        simp only [decide_eq_false_iff_not]
        intro hc
        exact h (hc ▸ hk ▸ rfl)
      rw [h1, h2, ih]
    · rw [if_neg hk]
      cases hk' : (decide (hd.1 = k')) with
      | true => rfl
      | false => rw [ih]

theorem find_append_singleton_ne (k k' : String) (v : PyVal) (h : k' ≠ k) (cv : CV) :
    (cv ++ [(k, v)]).find? (fun p => p.1 = k') = cv.find? (fun p => p.1 = k') := by
  induction cv with
  | nil =>
    simp only [List.nil_append, List.find?_cons, List.find?_nil]
    have h1 : (decide ((k, v).1 = k')) = false := by
      simp only [decide_eq_false_iff_not]
      exact fun hc => h hc.symm
    rw [h1]
  | cons hd tl ih =>
    simp only [List.cons_append, List.find?_cons]
    cases hk' : (decide (hd.1 = k')) with
    | true => rfl
    | false => rw [ih]

theorem cvGet_cvSet_ne (cv : CV) (k k' : String) (v : PyVal) (h : k' ≠ k) :
    cvGet (cvSet cv k v) k' = cvGet cv k' := by
  unfold cvSet cvGet
  by_cases hmem : (cv.find? (fun p => p.1 = k)).isSome
  · rw [if_pos hmem, find_map_overwrite_ne k k' v h cv]
  · rw [if_neg hmem, find_append_singleton_ne k k' v h cv]

theorem eraseP_edges_sublist (G : Qnet) (u v : String) (k : Nat) :
    (removeEdge G u v k).edges.Sublist G.edges :=
  List.eraseP_sublist G.edges

theorem foldl_removeEdge_sublist (l : List (Qnode × Qnode × Nat)) :
    ∀ G : Qnet,
      (l.foldl (fun C t => removeEdge C t.1.name t.2.1.name t.2.2) G).edges.Sublist G.edges := by
  induction l with
  | nil => intro G; exact List.Sublist.refl _
  | cons hd tl ih =>
    intro G
    exact (ih (removeEdge G hd.1.name hd.2.1.name hd.2.2)).trans
      (eraseP_edges_sublist G hd.1.name hd.2.1.name hd.2.2)

theorem remove_edges_sublist (G : Qnet) (p : Path) :
    (p.remove_edges G).edges.Sublist G.edges :=
  foldl_removeEdge_sublist (nodePairs p.node_array p.edge_keys) G

theorem purifyLoop_sublist (h t : Qnode) (th : Option Int) :
    ∀ (fuel : Nat) (C : Qnet) (acc : List CV) (c : Nat) res,
      purifyLoop h t th fuel C acc c = Except.ok res →
      res.2.2.edges.Sublist C.edges := by
  intro fuel
  induction fuel with
  | zero =>
    intro C acc c res hres
    simp only [purifyLoop] at hres
    cases hres
    exact List.Sublist.refl _
  | succ n ih =>
    intro C acc c res hres
    simp only [purifyLoop] at hres
    split at hres
    · split at hres
      · cases hres
        exact List.Sublist.refl _
      · cases hbp : best_path C h t "f" with
        | error e => rw [hbp] at hres; cases hres
        | ok p =>
          rw [hbp] at hres
          exact (ih _ _ _ _ hres).trans (remove_edges_sublist C p)
    · cases hres
      exact List.Sublist.refl _

/-- Claim C1 counterexample: on the snapshot netSingle, which has exactly one path
A-B, purify_reduce does NOT return the original snapshot plus one synthesized
edge: the one original channel of netSingle is absent from the returned
graph, which holds only the synthesized edge (it is the working copy with the
purified path removed plus the new edge). -/
theorem purify_reduce_drops_input_edges_cx :
    (purify_reduce netSingle "A" "B" none (1/2)).map
        (fun R => R.edges.map (fun e => (e.u, e.v, e.key, cvKeys e.costs))) =
      Except.ok [("A", "B", 0, ["f", "add_f", "e", "add_e"])] ∧
    (purify_reduce netSingle "A" "B" none (1/2)).map
        (fun R => decide
          ((⟨"A", "B", 0, [("e", PyVal.num 1), ("f", PyVal.num (9/10))]⟩ : QEdge)
            ∈ R.edges)) = Except.ok false ∧
    netSingle.edges =
        [⟨"A", "B", 0, [("e", PyVal.num 1), ("f", PyVal.num (9/10))]⟩] := by
  exact ⟨by rfl, by rfl, rfl⟩

/-- Claim C1 (amended): whenever purify_reduce returns a graph, that graph is the
working copy: its edge list is a sublist of the original snapshot's edges
(the purified paths' edges having been deleted) followed by exactly one
synthesized edge between head and tail carrying the combined cost vector. -/
theorem purify_reduce_returns_working_copy
    (Q : Qnet) (head tail : String) (th : Option Int) (prob : Rat) (R : Qnet)
    (hok : purify_reduce Q head tail th prob = Except.ok R) :
    ∃ h t k cv rest, Q.getNode head = some h ∧ Q.getNode tail = some t ∧
      R.edges = rest ++ [⟨h.name, t.name, k, cv⟩] ∧ rest.Sublist Q.edges := by
  unfold purify_reduce at hok
  split at hok
  · cases hok
  · split at hok
    · rename_i h t hgh hgt
      split at hok
      · cases hok
      · rename_i cvl cnt C1 hloop
        split at hok
        · cases hok
        · cases hok
        · split at hok
          · cases hok
          · cases hok
          · injection hok with hR
            subst hR
            refine ⟨h, t, _, _, C1.edges, hgh, hgt, rfl, ?_⟩
            exact purifyLoop_sublist h t th _ Q [] 0 _ hloop
    · cases hok

/-- Claim C1 witness: the amended theorem applied to the concrete snapshot
netSingle, whose purified graph is purifiedSingleNet. -/
theorem purify_reduce_returns_working_copy_witness :
    ∃ h t k cv rest, netSingle.getNode "A" = some h ∧
      netSingle.getNode "B" = some t ∧
      purifiedSingleNet.edges = rest ++ [⟨h.name, t.name, k, cv⟩] ∧
      rest.Sublist netSingle.edges :=
  purify_reduce_returns_working_copy netSingle "A" "B" none (1/2)
    purifiedSingleNet (by rfl)

/-- Claim C2 counterexample: on the snapshot netDisconnected, where no path exists
between A and B, purify_reduce does not return a NotConnected sentinel: it
raises TypeError (functools.reduce over the empty fidelity list). -/
theorem purify_reduce_disconnected_raises_cx :
    purify_reduce netDisconnected "A" "B" none (1/2) =
        Except.error PyErr.typeError ∧
    has_path netDisconnected (mkGround "A") (mkGround "B") = false :=
  ⟨by rfl, by rfl⟩

/-- Claim C2 (amended): for every snapshot whose head and tail resolve but are not
connected by any path, purify_reduce (with a valid threshold) raises the
TypeError of reducing an empty fidelity list; the NotConnected sentinel of
the specification is produced by the caller reduce_graph, not by
purify_reduce itself. -/
theorem purify_reduce_disconnected_raises
    (Q : Qnet) (head tail : String) (th : Option Int) (prob : Rat) (h t : Qnode)
    (hgh : Q.getNode head = some h) (hgt : Q.getNode tail = some t)
    (hpath : has_path Q h t = false)
    (hth : th = none ∨ ∃ k, th = some k ∧ 0 < k) :
    purify_reduce Q head tail th prob = Except.error PyErr.typeError := by
  have hval : checkThreshold th = Except.ok () := by
    rcases hth with h1 | ⟨k, hk, hkpos⟩
    · rw [h1]
      rfl
    · rw [hk]
      simp [checkThreshold, hkpos]
  have hloop : purifyLoop h t th (Q.edges.length + 1) Q [] 0 =
      Except.ok ([], 0, Q) := by
    simp only [purifyLoop, hpath]
    simp
  simp only [purify_reduce, hval, hgh, hgt, hloop]
  rfl

/-- Claim C2 witness: the amended theorem applied to netDisconnected with a valid
threshold of 2. -/
theorem purify_reduce_disconnected_raises_witness :
    purify_reduce netDisconnected "A" "B" (some 2) (1/2) =
      Except.error PyErr.typeError :=
  purify_reduce_disconnected_raises netDisconnected "A" "B" (some 2) (1/2)
    (mkGround "A") (mkGround "B") rfl rfl rfl (Or.inr ⟨2, rfl, by decide⟩)

/-- Claim C5 counterexample: on netTwoPar (two parallel channels A-B) with
threshold 1, the extraction loop of purify_reduce purifies 2 paths, not at
most 1: the counter check path_counter > threshold only fires after the
(threshold + 1)-th extraction. -/
theorem purify_threshold_off_by_one_cx :
    (purifyLoop (mkGround "A") (mkGround "B") (some 1)
        (netTwoPar.edges.length + 1) netTwoPar [] 0).map (fun r => r.2.1) =
      Except.ok 2 ∧ ¬((2 : Nat) ≤ 1) :=
  ⟨by rfl, by decide⟩

/-- Claim C5 (amended): for every snapshot and positive threshold t, the extraction
loop of purify_reduce purifies at most t + 1 paths: the loop breaks as soon
as the counter strictly exceeds t. -/
theorem purify_threshold_bound (h t : Qnode) (k : Int) (fuel : Nat) :
    ∀ (C : Qnet) (acc : List CV) (c : Nat) (n : Nat),
      (c : Int) ≤ k + 1 →
      (purifyLoop h t (some k) fuel C acc c).map (fun r => r.2.1) = Except.ok n →
      (n : Int) ≤ k + 1 := by
  induction fuel with
  | zero =>
    intro C acc c n hc hres
    simp only [purifyLoop, Except.map] at hres
    injection hres with hres
    exact hres ▸ hc
  | succ m ih =>
    intro C acc c n hc hres
    simp only [purifyLoop] at hres
    split at hres
    · split at hres
      · simp only [Except.map] at hres
        injection hres with hres
        exact hres ▸ hc
      · rename_i hthr
        have hck : (c : Int) ≤ k := by
          simp only [decide_eq_true_eq, not_lt] at hthr
          exact hthr
        cases hbp : best_path C h t "f" with
        | error e =>
          rw [hbp] at hres
          simp only [Except.map] at hres
          cases hres
        | ok p =>
          rw [hbp] at hres
          refine ih _ _ _ _ ?_ hres
          push_cast
          omega
    · simp only [Except.map] at hres
      injection hres with hres
      exact hres ▸ hc

/-- Claim C5 witness: the amended bound applied to the concrete run on netTwoPar
with threshold 1, whose loop purifies 2 paths. -/
theorem purify_threshold_bound_witness :
    ((0 : Nat) : Int) ≤ 1 + 1 ∧ ((2 : Nat) : Int) ≤ 1 + 1 :=
  ⟨by decide,
   purify_threshold_bound (mkGround "A") (mkGround "B") 1
     (netTwoPar.edges.length + 1) netTwoPar [] 0 2 (by decide) (by rfl)⟩

/-- Claim C7: the aggregation of a path cost vector whose summed result contains an
additive-marked dimension with no plain counterpart does not regenerate the
plain value and return normally; it raises RuntimeError, because the
conversion pass inserts the plain key into the dictionary being iterated
(src/Path.py lines 107-114). -/
theorem get_cost_vector_orphan_additive_raises :
    get_cost_vector netDisconnected [nodeAddOnly] [] =
        Except.error PyErr.runtimeError ∧
    nodeAddOnly.costs = [("add_t", PyVal.num 3)] ∧
    cvGet nodeAddOnly.costs "t" = none :=
  ⟨by rfl, rfl, by rfl⟩

/-- Claim C8: in the cost vector of the edge synthesized by purify_reduce over
netExtraDim (whose channel carries the extra dimension t), the additive name
add_t does carry the summed additive contribution, but the plain dimension t
holds the registered inverse conversion FUNCTION itself, not a numeric value:
src/Reductions.py line 86 reads Q.conversions[cost_type][1] without applying
it. -/
theorem purify_reduce_stores_conversion_function :
    (purify_reduce netExtraDim "A" "B" none (1/2)).map
        (fun R => R.edges.map (fun e => cvGet e.costs "t")) =
      Except.ok [some (PyVal.convFun "t")] ∧
    (purify_reduce netExtraDim "A" "B" none (1/2)).map
        (fun R => R.edges.map (fun e => cvGet e.costs "add_t")) =
      Except.ok [some (PyVal.num 5)] :=
  ⟨by rfl, by rfl⟩

/-- Claim C10: beyond its validation assertions, the threshold argument of
swap_reduce has no effect: with any positive threshold the result equals the
threshold-free result. -/
theorem swap_reduce_threshold_no_effect
    (Q : Qnet) (head tail : String) (k : Int) (hk : 0 < k) :
    swap_reduce Q head tail (some k) = swap_reduce Q head tail none := by
  unfold swap_reduce
  have h1 : checkThreshold (some k) = Except.ok () := by
    simp [checkThreshold, hk]
  have h2 : checkThreshold none = Except.ok () := rfl
  rw [h1, h2]

/-- Claim C10 witness: the theorem applied to netTwoSwappers with threshold 3. -/
theorem swap_reduce_threshold_no_effect_witness :
    (0 : Int) < 3 ∧
    swap_reduce netTwoSwappers "G1" "G2" (some 3) =
      swap_reduce netTwoSwappers "G1" "G2" none :=
  ⟨by decide, swap_reduce_threshold_no_effect netTwoSwappers "G1" "G2" 3 (by decide)⟩

/-- Claim C3 counterexample: with two selected pairs (a, b) and (c, d) and deletion
probability 1, percolate deletes every node, including node a which belongs
to the selected pair (a, b): the eligibility test any(node not in item for
item in pairs) marks a node as deletable as soon as it is missing from some
pair. -/
theorem percolate_kills_pair_member_cx :
    (percolate netFourNodes 1 (fun _ => [("a", "b"), ("c", "d")]) (fun _ => 0)).1.nodes
        = [] ∧
    (percolate netFourNodes 1 (fun _ => [("a", "b"), ("c", "d")]) (fun _ => 0)).2
        = [("a", "b"), ("c", "d")] ∧
    mkGround "a" ∈ netFourNodes.nodes ∧
    inPair (mkGround "a") ("a", "b") = true :=
  ⟨by rfl, by rfl, by decide, by rfl⟩

/-- Claim C3 (amended): percolate never deletes a node that belongs to EVERY
selected pair (with a single selected pair this protects exactly its two
endpoints), and with prob = 0 it deletes no node at all when the uniform
draws are nonnegative; a node belonging to one of several pairs but missing
from another is eligible for deletion. -/
theorem percolate_protects_nodes_in_every_pair
    (Q : Qnet) (prob : Rat) (pm : Qnet → List Pair) (draw : String → Rat) :
    (∀ n, n ∈ Q.nodes → (∀ p ∈ pm Q, inPair n p = true) →
        n ∈ (percolate Q prob pm draw).1.nodes) ∧
    (prob = 0 → (∀ s, 0 ≤ draw s) →
        (percolate Q prob pm draw).1.nodes = Q.nodes) := by
  constructor
  · intro n hn hp
    simp only [percolate, remove_nodes_from]
    rw [List.mem_filter]
    refine ⟨hn, ?_⟩
    rw [Bool.not_eq_true']
    rw [List.any_eq_false]
    intro m hm
    simp only [decide_eq_true_eq]
    intro hmn
    subst hmn
    rw [List.mem_filter] at hm
    have h2 := hm.2
    rw [Bool.and_eq_true] at h2
    rw [List.any_eq_true] at h2
    obtain ⟨p, hpmem, hpnot⟩ := h2.1
    rw [Bool.not_eq_true'] at hpnot
    rw [hp p hpmem] at hpnot
    cases hpnot
  · intro h0 hdraw
    subst h0
    have hkill : Q.nodes.filter
        (fun n => (pm Q).any (fun p => !(inPair n p)) && decide (draw n.name < 0))
          = [] := by
      rw [List.filter_eq_nil_iff]
      intro n hn
      have : ¬(draw n.name < 0) := not_lt.mpr (hdraw n.name)
      simp [this]
    simp only [percolate, remove_nodes_from, hkill]
    simp

/-- Claim C3 witness: with the single pair (a, b), node a survives percolation, and
with prob = 0 the node list is unchanged. -/
theorem percolate_protects_nodes_in_every_pair_witness :
    mkGround "a" ∈
      (percolate netFourNodes (1/2) (fun _ => [("a", "b")]) (fun _ => 1)).1.nodes ∧
    (percolate netFourNodes 0 (fun _ => [("a", "b")]) (fun _ => 0)).1.nodes =
      netFourNodes.nodes :=
  ⟨(percolate_protects_nodes_in_every_pair netFourNodes (1/2)
      (fun _ => [("a", "b")]) (fun _ => 1)).1 (mkGround "a") (by decide)
      (by intro p hp
          simp only [List.mem_singleton] at hp
          subst hp
          rfl),
   (percolate_protects_nodes_in_every_pair netFourNodes 0
      (fun _ => [("a", "b")]) (fun _ => 0)).2 rfl (fun s => le_refl 0)⟩

/-- Claim C6 counterexample: in netSingle the node pair (A, B) exists but edge key
7 references no edge; Path construction nevertheless succeeds, and the bogus
key silently contributes nothing to the cost vector (which here is empty),
because get_edge_data returns None and Counter.update(None) is a no-op while
the final assertion checks only the node pair. -/
theorem construct_bad_key_succeeds_cx :
    Path.construct netSingle ["A", "B"] (some [7]) =
      Except.ok ⟨[mkGround "A", mkGround "B"], [7], []⟩ ∧
    get_edge_data netSingle "A" "B" 7 = none :=
  ⟨by rfl, by rfl⟩

/-- Claim C6 (amended): given resolvable names, a nonempty node array and a cost
aggregation that does not itself raise, Path construction succeeds if and
only if every consecutive node pair has an edge in either direction — the
edge keys are ignored by the validation, and a wrong key on an existing pair
is silently treated as a zero cost contribution rather than an error. -/
theorem construct_checks_pairs_ignoring_keys
    (G : Qnet) (names : List String) (keys : Option (List Nat))
    (arr : List Qnode) (cv : CV)
    (hres : names.mapM (getNodeE G) = Except.ok arr) (hne : arr ≠ [])
    (hcv : get_cost_vector G arr (keys.getD (List.replicate (arr.length - 1) 0)) =
      Except.ok cv) :
    (Path.construct G names keys =
        Except.ok ⟨arr, keys.getD (List.replicate (arr.length - 1) 0), cv⟩) ↔
      consecPairsExist G arr = true := by
  have hemp : arr.isEmpty = false := by
    cases arr with
    | nil => exact absurd rfl hne
    | cons a l => rfl
  simp only [Path.construct, hres, hemp, hcv]
  simp only [Bool.false_eq_true, if_false]
  constructor
  · intro h
    by_contra hcp
    rw [Bool.not_eq_true] at hcp
    rw [hcp] at h
    simp at h
  · intro h
    rw [h]
    simp

/-- Claim C6 witness: the amended characterization applied to netSingle with the
default edge keys, where construction succeeds and picks up the channel
costs. -/
theorem construct_checks_pairs_ignoring_keys_witness :
    Path.construct netSingle ["A", "B"] none =
      Except.ok ⟨[mkGround "A", mkGround "B"], [0],
        [("e", PyVal.num 1), ("f", PyVal.num (9/10))]⟩ :=
  (construct_checks_pairs_ignoring_keys netSingle ["A", "B"] none
      [mkGround "A", mkGround "B"]
      [("e", PyVal.num 1), ("f", PyVal.num (9/10))]
      (by rfl) (by intro h; cases h) (by rfl)).mpr (by rfl)

theorem linspace_length (a b : Rat) (n : Nat) : (linspace a b n).length = n := by
  unfold linspace
  split
  · rw [List.length_replicate]
  · rw [List.length_map, List.length_range]

theorem linspace_getD (a b : Rat) (n : Nat) (hn : 2 ≤ n) (i : Nat) (hi : i < n) :
    (linspace a b n).getD i 0 = a + (b - a) * i / ((n : Rat) - 1) := by
  unfold linspace
  rw [if_neg (by omega)]
  simp [List.getD_eq_getElem?_getD, List.getElem?_map, List.getElem?_range hi]

theorem linspace_sub_one_ne (n : Nat) (hn : 2 ≤ n) : ((n : Rat) - 1) ≠ 0 := by
  have h2 : (2 : Rat) ≤ (n : Rat) := by exact_mod_cast hn
  intro hc
  have : (n : Rat) = 1 := by linarith
  linarith

theorem linspace_chain (a b : Rat) (n : Nat) (hab : a ≤ b) :
    List.Chain' (fun x y => x ≤ y) (linspace a b n) := by
  unfold linspace
  split
  · rename_i h1
    interval_cases n
    · exact List.chain'_nil
    · exact List.chain'_singleton a
  · rename_i h1
    have hn : 2 ≤ n := by omega
    apply List.Pairwise.chain'
    rw [List.pairwise_map]
    apply List.Pairwise.imp ?_ (List.pairwise_lt_range n)
    intro i j hij
    have hden : (0 : Rat) < (n : Rat) - 1 := by
      have h2 : (2 : Rat) ≤ (n : Rat) := by exact_mod_cast hn
      linarith
    have hle : (i : Rat) ≤ (j : Rat) := by exact_mod_cast Nat.le_of_lt hij
    have hba : (0 : Rat) ≤ b - a := by linarith
    gcongr

/-- Claim C9 counterexample: a reversed percolation range (4/5, 1/5) passes the
validation assertion (which checks only 0 <= range[0] and range[1] <= 1), and
the resulting probability column [4/5, 1/5] is strictly decreasing, not
monotonically non-decreasing. -/
theorem monte_method_reversed_range_cx :
    monte_method 2 (some (4/5, 1/5)) = Except.ok ([4/5, 1/5], 2) ∧
    ¬ List.Chain' (fun x y => x ≤ y) [(4 : Rat)/5, 1/5] := by
  constructor
  · have hlin : linspace (4/5) (1/5) 2 = [4/5, 1/5] := by
      rw [linspace, if_neg (by norm_num)]
      norm_num [List.range_succ]
    simp only [monte_method]
    rw [if_pos (by norm_num), hlin]
    rfl
  · intro h
    rw [List.chain'_cons] at h
    have := h.1
    norm_num at this

/-- Claim C9 (amended): for a validated range that is also correctly ordered
(lo <= hi) and at least two steps, monte_method returns a table with exactly
num_steps rows whose probability column is the evenly spaced non-decreasing
grid from lo to hi; without a range the full [0, 1] grid is used.  A reversed
range passing validation yields a decreasing column instead. -/
theorem monte_method_grid (lo hi : Rat) (n : Nat)
    (hlo : 0 ≤ lo) (hle : lo ≤ hi) (hhi : hi ≤ 1) (hn : 2 ≤ n) :
    monte_method n (some (lo, hi)) = Except.ok (linspace lo hi n, n) ∧
    monte_method n none = Except.ok (linspace 0 1 n, n) ∧
    (linspace lo hi n).length = n ∧
    List.Chain' (fun x y => x ≤ y) (linspace lo hi n) ∧
    (linspace lo hi n).getD 0 0 = lo ∧
    (linspace lo hi n).getD (n - 1) 0 = hi ∧
    (∀ i, i + 1 < n →
      (linspace lo hi n).getD (i + 1) 0 - (linspace lo hi n).getD i 0 =
        (hi - lo) / ((n : Rat) - 1)) := by
  have hne := linspace_sub_one_ne n hn
  refine ⟨?_, ?_, linspace_length lo hi n, linspace_chain lo hi n hle, ?_, ?_, ?_⟩
  · simp only [monte_method]
    rw [if_pos ⟨hlo, hhi⟩, linspace_length]
  · simp only [monte_method]
    rw [linspace_length]
  · rw [linspace_getD lo hi n hn 0 (by omega)]
    norm_num
  · rw [linspace_getD lo hi n hn (n - 1) (by omega)]
    rw [Nat.cast_sub (by omega : 1 ≤ n)]
    field_simp
  · intro i hi2
    rw [linspace_getD lo hi n hn (i + 1) (by omega),
      linspace_getD lo hi n hn i (by omega)]
    field_simp
    ring

/-- Claim C9 witness: the amended theorem at the range (0, 1) with three steps; the
binder-free conclusions instantiated. -/
theorem monte_method_grid_witness :
    monte_method 3 (some (0, 1)) = Except.ok (linspace 0 1 3, 3) ∧
    (linspace 0 1 3).length = 3 ∧
    List.Chain' (fun x y => x ≤ y) (linspace 0 1 3) ∧
    (linspace 0 1 3).getD 0 0 = 0 ∧
    (linspace 0 1 3).getD (3 - 1) 0 = 1 :=
  ⟨(monte_method_grid 0 1 3 (by norm_num) (by norm_num) (by norm_num) (by norm_num)).1,
   (monte_method_grid 0 1 3 (by norm_num) (by norm_num) (by norm_num) (by norm_num)).2.2.1,
   (monte_method_grid 0 1 3 (by norm_num) (by norm_num) (by norm_num) (by norm_num)).2.2.2.1,
   (monte_method_grid 0 1 3 (by norm_num) (by norm_num) (by norm_num) (by norm_num)).2.2.2.2.1,
   (monte_method_grid 0 1 3 (by norm_num) (by norm_num) (by norm_num) (by norm_num)).2.2.2.2.2.1⟩

theorem flankedSwap_append (l l' : List Qnode) (q : Rat) (h : FlankedSwap l q) :
    FlankedSwap (l ++ l') q := by
  obtain ⟨l1, s, l2, heq, hs, hq, hg1, g, hgm, hgt⟩ := h
  exact ⟨l1, s, l2 ++ l', by rw [heq]; simp, hs, hq, hg1,
    g, List.mem_append_left _ hgm, hgt⟩

theorem swapInv_extend (processed : List Qnode) (n : Qnode) (st : SwapState)
    (h : SwapInv processed st) : SwapInv (processed ++ [n]) st := by
  obtain ⟨h1, h2, h3⟩ := h
  refine ⟨?_, ?_, ?_⟩
  · intro hgs
    obtain ⟨g, hgm, hgt⟩ := h1 hgs
    exact ⟨g, List.mem_append_left _ hgm, hgt⟩
  · intro s hs
    obtain ⟨l1, l2, heq, hsw, hg⟩ := h2 s hs
    exact ⟨l1, l2 ++ [n], by rw [heq]; simp, hsw, hg⟩
  · intro q hq
    exact flankedSwap_append _ _ _ (h3 q hq)

theorem swapStep_inv (processed : List Qnode) (st : SwapState) (n : Qnode)
    (h : SwapInv processed st) : SwapInv (processed ++ [n]) (swapStep st n) := by
  obtain ⟨e1, e2, e3⟩ := swapInv_extend processed n st h
  obtain ⟨gs, sw, costs⟩ := st
  obtain ⟨h1, h2, h3⟩ := h
  have hmemn : n ∈ processed ++ [n] :=
    List.mem_append_right _ (List.mem_singleton.mpr rfl)
  by_cases hg : n.ntype = NType.ground
  · cases gs with
    | false =>
      have hstep : swapStep ⟨false, sw, costs⟩ n = ⟨true, sw, costs⟩ := by
        simp [swapStep, hg]
      rw [hstep]
      exact ⟨fun _ => ⟨n, hmemn, hg⟩, e2, e3⟩
    | true =>
      cases sw with
      | none =>
        have hstep : swapStep ⟨true, none, costs⟩ n = ⟨true, none, costs⟩ := by
          simp [swapStep, hg]
        rw [hstep]
        exact ⟨e1, e2, e3⟩
      | some s =>
        have hstep : swapStep ⟨true, some s, costs⟩ n =
            ⟨true, none, costs ++ [s.swap_prob]⟩ := by
          simp [swapStep, hg]
        rw [hstep]
        refine ⟨e1, ?_, ?_⟩
        · intro s' hs'
          exact Option.noConfusion hs'
        · intro q hq
          rw [List.mem_append] at hq
          cases hq with
          | inl hq => exact e3 q hq
          | inr hq =>
            rw [List.mem_singleton] at hq
            subst hq
            obtain ⟨l1, l2, heq, hsw, hgin⟩ := h2 s rfl
            exact ⟨l1, s, l2 ++ [n], by rw [heq]; simp, hsw, rfl, hgin,
              n, List.mem_append_right _ (List.mem_singleton.mpr rfl), hg⟩
  · by_cases hsgs : n.ntype = NType.swapper ∧ gs = true
    · obtain ⟨hsw, hgs⟩ := hsgs
      subst hgs
      have hstep : swapStep ⟨true, sw, costs⟩ n = ⟨true, some n, costs⟩ := by
        simp [swapStep, hg, hsw]
      rw [hstep]
      refine ⟨e1, ?_, e3⟩
      intro s' hs'
      injection hs' with hs'
      subst hs'
      exact ⟨processed, [], rfl, hsw, h1 rfl⟩
    · have hstep : swapStep ⟨gs, sw, costs⟩ n = ⟨gs, sw, costs⟩ := by
        simp [swapStep, hg, hsgs]
      rw [hstep]
      exact ⟨e1, e2, e3⟩

theorem foldl_swapStep_inv (rest : List Qnode) :
    ∀ (st : SwapState) (processed : List Qnode),
      SwapInv processed st → SwapInv (processed ++ rest) (rest.foldl swapStep st) := by
  induction rest with
  | nil =>
    intro st processed h
    simpa using h
  | cons n rest ih =>
    intro st processed h
    have h2 := swapStep_inv processed st n h
    have h3 := ih (swapStep st n) (processed ++ [n]) h2
    simpa [List.append_assoc] using h3

theorem collectSwapCosts_flanked (arr : List Qnode) :
    ∀ q ∈ collectSwapCosts arr, FlankedSwap arr q := by
  intro q hq
  have h0 : SwapInv [] ⟨false, none, []⟩ := by
    refine ⟨?_, ?_, ?_⟩
    · intro hc
      cases hc
    · intro s hs
      exact Option.noConfusion hs
    · intro q hq
      cases hq
  have h1 := foldl_swapStep_inv arr ⟨false, none, []⟩ [] h0
  rw [List.nil_append] at h1
  unfold collectSwapCosts at hq
  exact h1.2.2 q hq

/-- Claim C4 counterexample: on the path G1-S1-S2-G2 every one of the two swappers
S1 (swap probability 1/2) and S2 (swap probability 1/3) has a Ground node on
both of its sides, so the claim demands an efficiency factor of
(1/2) * (1/3) = 1/6; the code overwrites the pending swapper, consumes only
S2 at G2 and multiplies efficiency 3 by 1/3 alone, giving 1 rather than
3 * (1/6) = 1/2. -/
theorem swap_path_skips_shadowed_swapper_cx :
    pathTwoSwappers.swap_path =
        Except.ok [("e", PyVal.num ((3 : Rat) * (1 * (1/3))))] ∧
    (3 : Rat) * (1 * (1/3)) = 1 ∧
    (1 : Rat) ≠ 3 * ((1/2) * (1/3)) ∧
    pathTwoSwappers.node_array =
      [mkGround "G1", mkSwapper "S1" (1/2), mkSwapper "S2" (1/3), mkGround "G2"] :=
  ⟨by rfl, by norm_num, by norm_num, rfl⟩

/-- Claim C4 (amended): swap_path returns the path cost vector with only the
efficiency dimension changed — it is multiplied by the product of the
collected swap probabilities, every dimension other than efficiency passes
through unchanged, and each collected probability belongs to a Swapper node
that has a Ground-type node on both of its sides in sequence order.  The
collected swappers, however, are only the most recent pending swapper at each
consuming ground (a subset of all validly flanked swappers), and with zero
collected swappers the factor is the empty product 1. -/
theorem swap_path_scales_e_by_consumed_swaps (p : Path) (e : Rat)
    (he : cvGet p.cost_vector "e" = some (PyVal.num e)) :
    p.swap_path = Except.ok (cvSet p.cost_vector "e"
        (PyVal.num (e * prodList (collectSwapCosts p.node_array)))) ∧
    (∀ k, k ≠ "e" →
      cvGet (cvSet p.cost_vector "e"
          (PyVal.num (e * prodList (collectSwapCosts p.node_array)))) k =
        cvGet p.cost_vector k) ∧
    (∀ q ∈ collectSwapCosts p.node_array, FlankedSwap p.node_array q) := by
  refine ⟨?_, ?_, collectSwapCosts_flanked p.node_array⟩
  · unfold Path.swap_path
    rw [he]
    rfl
  · intro k hk
    exact cvGet_cvSet_ne p.cost_vector "e" k _ hk

/-- Claim C4 witness: the amended theorem applied to the concrete path
G1-S1-S2-G2, whose cost vector carries efficiency 3. -/
theorem swap_path_scales_e_by_consumed_swaps_witness :
    cvGet pathTwoSwappers.cost_vector "e" = some (PyVal.num 3) ∧
    pathTwoSwappers.swap_path = Except.ok (cvSet pathTwoSwappers.cost_vector "e"
        (PyVal.num (3 * prodList (collectSwapCosts pathTwoSwappers.node_array)))) :=
  ⟨by rfl,
   (swap_path_scales_e_by_consumed_swaps pathTwoSwappers 3 (by rfl)).1⟩

end QNETModel
